import Mathlib

/-!
Verification development for the latent-space-model (LSM) embedding code
(`binary_euclidean_LSM.py`, `binary_hyperbolic_LSM.py`, `helper_functions.py`).

The Python code computes with IEEE floating point numbers.  We embed the
finite arithmetic with real numbers, and keep the IEEE special values
`+inf`, `-inf`, `NaN` explicit through the type `FExt` wherever the source
manipulates them (the Bookstein log-prior adds `np.NINF * indicator` terms,
whose IEEE semantics — in particular `(-inf) * 0 = NaN` — are load-bearing).
-/

/-- Extended value: a finite real, `+inf`, `-inf`, or `NaN`, mirroring the
IEEE special values that the numpy/JAX code manipulates explicitly.  Finite
values carry exact reals (rounding is not modelled). -/
inductive FExt where
  | fin : ℝ → FExt
  | pinf : FExt
  | ninf : FExt
  | nan : FExt

/-- IEEE addition on `FExt`: `NaN` propagates, `fin + fin` is real addition,
an infinity absorbs finite values, and `(+inf) + (-inf) = NaN`. -/
def FExt.add : FExt → FExt → FExt
  | .nan, _ => .nan
  | _, .nan => .nan
  | .fin x, .fin y => .fin (x + y)
  | .fin _, .pinf => .pinf
  | .fin _, .ninf => .ninf
  | .pinf, .fin _ => .pinf
  | .ninf, .fin _ => .ninf
  | .pinf, .pinf => .pinf
  | .ninf, .ninf => .ninf
  | .pinf, .ninf => .nan
  | .ninf, .pinf => .nan

/-- IEEE multiplication on `FExt`: `NaN` propagates, `fin * fin` is real
multiplication, and an infinity times a value follows the sign rules with
`inf * 0 = NaN`. -/
noncomputable def FExt.mul : FExt → FExt → FExt
  | .nan, _ => .nan
  | _, .nan => .nan
  | .fin x, .fin y => .fin (x * y)
  | .pinf, .fin y => if 0 < y then .pinf else if y < 0 then .ninf else .nan
  | .ninf, .fin y => if 0 < y then .ninf else if y < 0 then .pinf else .nan
  | .fin x, .pinf => if 0 < x then .pinf else if x < 0 then .ninf else .nan
  | .fin x, .ninf => if 0 < x then .ninf else if x < 0 then .pinf else .nan
  | .pinf, .pinf => .pinf
  | .pinf, .ninf => .ninf
  | .ninf, .pinf => .ninf
  | .ninf, .ninf => .pinf

/-- Conversion of a JAX boolean to a float (`True ↦ 1.0`, `False ↦ 0.0`),
as happens when a boolean array is multiplied by a float. -/
noncomputable def boolToR (b : Prop) [Decidable b] : ℝ :=
  if b then 1 else 0

/-- Gaussian log-density `jax.scipy.stats.norm.logpdf(x, loc, scale)`. -/
noncomputable def normLogpdf (x m s : ℝ) : ℝ :=
  -(((x - m) / s) ^ 2) / 2 - Real.log (Real.sqrt (2 * Real.pi) * s)

/-- Term `log_prior(z[1:,:], mu, sigma)` of `binary_euclidean_LSM.py`: the sum
of independent normal log-densities over all non-pivot rows (`z` has `n+1`
rows, row `0` being the pivot). -/
noncomputable def binEucRestLogPrior {n : ℕ} (z : Fin (n + 1) → Fin 2 → ℝ)
    (m : Fin 2 → ℝ) (s : ℝ) : ℝ :=
  ∑ i : Fin n, ∑ k : Fin 2, normLogpdf (z i.succ k) (m k) s

/-- Embedding of `bookstein_log_prior` from `binary_euclidean_LSM.py`:
`rest_logprior + (log 2 + sum(norm.logpdf(z[0,:])) + np.NINF * (z[0,1] < 0))`.
The grouping and the IEEE special-value arithmetic follow the source line:
the indicator is converted to a float and multiplied by `-inf`, and the
results are combined with IEEE addition. -/
noncomputable def binEucBkstLogPrior {n : ℕ} (z : Fin (n + 1) → Fin 2 → ℝ)
    (m : Fin 2 → ℝ) (s : ℝ) : FExt :=
  FExt.add (.fin (binEucRestLogPrior z m s))
    (FExt.add (.fin (Real.log 2 + ∑ k : Fin 2, normLogpdf (z 0 k) (m k) s))
      (FExt.mul .ninf (.fin (boolToR (z 0 1 < 0)))))

/-- Gram matrix `G = z @ z.T` of `helper_functions.euclidean_distance`. -/
def gram {N D : ℕ} (z : Fin N → Fin D → ℝ) (i j : Fin N) : ℝ :=
  ∑ k : Fin D, z i k * z j k

/-- Embedding of `helper_functions.euclidean_distance`: all-pairs distances via
the Gram identity, with the squared distance clamped to `≥ 0` before the square
root (`inside = maximum(outer(ones,g) + outer(g,ones) - 2G, 0)`). -/
noncomputable def euclidean_distance {N D : ℕ} (z : Fin N → Fin D → ℝ) :
    Fin N → Fin N → ℝ :=
  fun i j => Real.sqrt (max (gram z j j + gram z i i - 2 * gram z i j) 0)

/-- Sign vector of the Minkowski bilinear form (`signs[:,0] = -1`, else `1`). -/
noncomputable def lorSign {D : ℕ} (k : Fin (D + 1)) : ℝ :=
  if k = 0 then -1 else 1

/-- Embedding of `helper_functions.lorentzian`: the row-wise Minkowski product
`sum(v * u * signs, axis=1)`. -/
noncomputable def lorentzian {N D : ℕ} (v u : Fin N → Fin (D + 1) → ℝ)
    (i : Fin N) : ℝ :=
  ∑ k : Fin (D + 1), v i k * u i k * lorSign k

/-- All-pairs Minkowski products `dot(signs * z, z.T)` computed inside
`helper_functions.lorentz_distance`. -/
noncomputable def lorentzGram {N D : ℕ} (z : Fin N → Fin (D + 1) → ℝ)
    (i j : Fin N) : ℝ :=
  ∑ k : Fin (D + 1), lorSign k * z i k * z j k

/-- Inner `arccosh` of `helper_functions.lorentz_distance`: the argument is
clamped to `≥ 1` (`x_clip = maximum(x, 1)`) before
`log(x_clip + sqrt(x_clip^2 - 1))`. -/
noncomputable def arccoshClip (x : ℝ) : ℝ :=
  Real.log (max x 1 + Real.sqrt ((max x 1) ^ 2 - 1))

/-- Embedding of `helper_functions.lorentz_distance`: `arccosh(-lor)` with the
diagonal forced to exactly `0`. -/
noncomputable def lorentz_distance {N D : ℕ} (z : Fin N → Fin (D + 1) → ℝ) :
    Fin N → Fin N → ℝ :=
  fun i j => if i = j then 0 else arccoshClip (-(lorentzGram z i j))

/-- Semantics of `jnp.clip(x, lo, hi) = minimum(maximum(x, lo), hi)`. -/
noncomputable def clip (x lo hi : ℝ) : ℝ :=
  min (max x lo) hi

/-- Embedding of `binary_hyperbolic_LSM.d_to_p` (element-wise on a distance):
`clip(exp(-d^2), eps, 1 - eps)`. -/
noncomputable def d_to_p (d eps : ℝ) : ℝ :=
  clip (Real.exp (-(d ^ 2))) eps (1 - eps)

/-- Embedding of `helper_functions.hyp_pnt`: lifts row `x` to the hyperboloid
point `(sqrt(sum(x^2) + 1), x)`. -/
noncomputable def hyp_pnt {N D : ℕ} (X : Fin N → Fin D → ℝ) :
    Fin N → Fin (D + 1) → ℝ :=
  fun i => Fin.cons (Real.sqrt (∑ j : Fin D, X i j ^ 2 + 1)) (X i)

/-- Coefficient `alpha = -lorentzian(nu, mu)` of
`helper_functions.parallel_transport`. -/
noncomputable def ptAlpha {N D : ℕ} (nu mu : Fin N → Fin (D + 1) → ℝ)
    (i : Fin N) : ℝ :=
  -(lorentzian nu mu i)

/-- Embedding of `helper_functions.parallel_transport`:
`u = v + lorentzian(mu - alpha * nu, v) / (alpha + 1) * (nu + mu)`. -/
noncomputable def parallel_transport {N D : ℕ}
    (v nu mu : Fin N → Fin (D + 1) → ℝ) : Fin N → Fin (D + 1) → ℝ :=
  fun i k =>
    v i k +
      lorentzian (fun a b => mu a b - ptAlpha nu mu a * nu a b) v i /
          (ptAlpha nu mu i + 1) * (nu i k + mu i k)

/-- Norm used as divisor in `helper_functions.exponential_map`:
`u_norm = sqrt(clip(lor, eps, lor))` where `lor = lorentzian(u, u)`. -/
noncomputable def exp_map_norm {N D : ℕ} (u : Fin N → Fin (D + 1) → ℝ)
    (eps : ℝ) (i : Fin N) : ℝ :=
  Real.sqrt (clip (lorentzian u u i) eps (lorentzian u u i))

/-- Embedding of `helper_functions.exponential_map`:
`cosh(u_norm) * mu + sinh(u_norm) * u / u_norm`. -/
noncomputable def exponential_map {N D : ℕ}
    (mu u : Fin N → Fin (D + 1) → ℝ) (eps : ℝ) : Fin N → Fin (D + 1) → ℝ :=
  fun i k =>
    Real.cosh (exp_map_norm u eps i) * mu i k +
      Real.sinh (exp_map_norm u eps i) * u i k / exp_map_norm u eps i

/-- Index set of the strict upper triangle (the `M = N(N-1)/2` edges). -/
abbrev Edges (N : ℕ) := {p : Fin N × Fin N // p.1 < p.2}

/-- Safe `x * log y` with `xlogy(0, y) = 0`, as used by
`jax.scipy.stats.bernoulli.logpmf`. -/
noncomputable def xlogy (x y : ℝ) : ℝ :=
  if x = 0 then 0 else x * Real.log y

/-- Embedding of `jax.scipy.stats.bernoulli.logpmf(k, p)
= xlogy(k, p) + xlog1py(1 - k, -p)`. -/
noncomputable def bernoulli_logpmf (k p : ℝ) : ℝ :=
  xlogy k p + xlogy (1 - k) (1 - p)

/-- Deterministic parameters of the binary hyperbolic model
(`binary_hyperbolic_LSM.get_det_params`): reconstructed hyperboloid positions,
upper-triangle distances, and edge probabilities. -/
structure HypParams (N D : ℕ) where
  z : Fin N → Fin (D + 1) → ℝ
  d : Edges N → ℝ
  p : Edges N → ℝ

/-- Embedding of `binary_hyperbolic_LSM.get_det_params`: tile `mu`, lift it via
`hyp_pnt`, prepend a zero coordinate to `_z`, parallel-transport from the
hyperboloid origin `mu_0` to `mu`, apply the exponential map (whose own norm
guard uses its default `eps = 1e-6`), then take upper-triangle Lorentz
distances and `d_to_p`. -/
noncomputable def binHyp_get_det_params {N D : ℕ} (_z : Fin N → Fin D → ℝ)
    (m : Fin D → ℝ) (eps : ℝ) : HypParams N D :=
  let mu0 : Fin N → Fin (D + 1) → ℝ := fun _ => Fin.cons 1 (fun _ => 0)
  let muTilde : Fin N → Fin D → ℝ := fun _ => m
  let muH := hyp_pnt muTilde
  let v : Fin N → Fin (D + 1) → ℝ := fun i => Fin.cons 0 (_z i)
  let u := parallel_transport v mu0 muH
  let zH := exponential_map muH u (1 / 1000000)
  let dFn : Edges N → ℝ := fun e => lorentz_distance zH e.1.1 e.1.2
  { z := zH, d := dFn, p := fun e => d_to_p (dFn e) eps }

/-- Embedding of `binary_hyperbolic_LSM.log_likelihood`: Bernoulli log-mass of
all observed samples and edges under the probabilities of `get_det_params`,
summed to a scalar. -/
noncomputable def binHyp_log_likelihood {N D S : ℕ} (_z : Fin N → Fin D → ℝ)
    (obs : Fin S → Edges N → ℝ) (m : Fin D → ℝ) (eps : ℝ) : ℝ :=
  ∑ s : Fin S, ∑ e : Edges N, bernoulli_logpmf (obs s e)
    ((binHyp_get_det_params _z m eps).p e)

/-- Maximum entry of a nonempty vector (`jnp.max(d)`). -/
noncomputable def vecMax {m : ℕ} (d : Fin (m + 1) → ℝ) : ℝ :=
  Finset.univ.sup' ⟨0, Finset.mem_univ 0⟩ d

/-- Edge probabilities of `binary_euclidean_LSM.get_det_params` as a function
of the upper-triangle distance vector: `p = 1 - d / (max(d) + eps)`. -/
noncomputable def binEuc_p {m : ℕ} (d : Fin (m + 1) → ℝ) (eps : ℝ) :
    Fin (m + 1) → ℝ :=
  fun e => 1 - d e / (vecMax d + eps)

/-- Python runtime errors raised by the embedded code. -/
inductive PyErr where
  | nameError
  | valueError
  | attributeError
  | indexError
  | fuelExhausted

/-- Embedding of `binary_euclidean_LSM.log_likelihood`.  Its body's first
statement is `params = get_all_params(z, eps=eps)`, but no `get_all_params`
is defined or imported anywhere in that module (the module defines
`get_det_params`), so every call raises `NameError` before computing
anything. -/
def binEuc_log_likelihood {N S : ℕ} (_z : Fin N → Fin 2 → ℝ)
    (_obs : Fin S → Edges N → ℝ) (_eps : ℚ) : Except PyErr ℝ :=
  .error .nameError

/-- Particle-set state of the tempered SMC sampler (blackjax
`TemperedSMCState`): the tempering parameter `lmbda` plus the particle
collection, which is abstracted into the single rational field `aux`
(its exact contents do not matter for the control-flow claims). -/
structure TemperState where
  lmbda : ℚ
  aux : ℚ
deriving DecidableEq

/-- Modelled from the spec: `jax.random.split` is a pure deterministic
function of the key; sub-keys are modelled as distinct branches of an
infinite binary tree over `ℕ`.  Returns `(new_key, sub_key)`. -/
def keySplit (k : ℕ) : ℕ × ℕ :=
  (2 * k + 1, 2 * k + 2)

/-- Python object appearing in the `jax.lax.while_loop` carry of
`binary_euclidean_LSM.smc_bkst_inference_loop`. -/
inductive PyObj where
  | pint : ℤ → PyObj
  | pfloat : ℚ → PyObj
  | pstate : TemperState → PyObj
  | pkey : ℕ → PyObj

/-- Embedding of `cond` in `binary_euclidean_LSM.smc_bkst_inference_loop`:
`state = carry[2]; return state.lmbda < 1` (an out-of-range index or a
non-state object at index 2 would raise). -/
def smcCond (carry : List PyObj) : Except PyErr Bool :=
  match carry.get? 2 with
  | some (.pstate s) => .ok (decide (s.lmbda < 1))
  | some _ => .error .attributeError
  | none => .error .indexError

/-- Embedding of `step` in `binary_euclidean_LSM.smc_bkst_inference_loop`.
The body begins with the tuple unpacking
`i, lml, s_values, state, key = carry`, which requires the carry to have
exactly 5 components and raises `ValueError` otherwise; the successful
branch then splits the key, applies the SMC kernel to the sub-key,
accumulates the log-likelihood increment, and returns the 4-tuple
`(i + 1, lml, state, key)`. -/
def smcStepBody (kernel : ℕ → TemperState → TemperState × ℚ)
    (carry : List PyObj) : Except PyErr (List PyObj) :=
  match carry with
  | [.pint i, .pfloat lml, _sValues, .pstate st, .pkey k] =>
      let ks := keySplit k
      let r := kernel ks.2 st
      .ok [.pint (i + 1), .pfloat (lml + r.2), .pstate r.1, .pkey ks.1]
  | _ => .error .valueError

/-- Fuel-indexed embedding of `jax.lax.while_loop`: evaluate the condition;
if it holds run one step and recurse, otherwise return the carry.  Errors
raised by the condition or the body propagate. -/
def pyWhile (c : List PyObj → Except PyErr Bool)
    (st : List PyObj → Except PyErr (List PyObj)) :
    ℕ → List PyObj → Except PyErr (List PyObj)
  | 0, carry => (c carry).bind fun b =>
      if b then .error .fuelExhausted else .ok carry
  | f + 1, carry => (c carry).bind fun b =>
      if b then (st carry).bind (pyWhile c st f) else .ok carry

/-- Embedding of `binary_euclidean_LSM.smc_bkst_inference_loop`: runs the
while-loop on the initial carry `(0, 0., initial_state, key)` — a 4-tuple. -/
def smc_bkst_inference_loop (kernel : ℕ → TemperState → TemperState × ℚ)
    (key : ℕ) (s0 : TemperState) (fuel : ℕ) : Except PyErr (List PyObj) :=
  pyWhile smcCond (smcStepBody kernel) fuel
    [.pint 0, .pfloat 0, .pstate s0, .pkey key]

/-- Modelled from the spec: blackjax `adaptive_tempered_smc(...).init` sets
the tempering parameter to `λ = 0` over the initial particles (spec §4.4,
`Initialized(λ=0)`); blackjax is not part of `src/`. -/
def smcSpecInit (aux0 : ℚ) : TemperState :=
  ⟨0, aux0⟩

/-- Modelled from the spec: one adaptive tempered SMC transition (spec §4.4).
`solve` is the ESS-matching proposal for the next tempering parameter (the
spec requires `solve s > s.lmbda`), capped at `λ' = 1`; `mutate` abstracts the
resample-and-mutate pass over the particles; `incr` is the log
normalizing-constant increment reported for this step.  Blackjax's `step`
is not part of `src/`. -/
def smcSpecStep (solve mutate incr : TemperState → ℚ) (s : TemperState) :
    TemperState × ℚ :=
  (⟨min 1 (solve s), mutate s⟩, incr s)

/-- Modelled from the spec and `bookstein_methods.smc_bkst_inference_loop`
(imported by `binary_hyperbolic_LSM.py` but not present in `src/`): iterate
`step` while `λ < 1`, counting iterations and accumulating the log marginal
likelihood; `none` models running out of fuel (the source loop is
unbounded). -/
def smcSpecLoop (step : TemperState → TemperState × ℚ) :
    ℕ → TemperState → ℚ → ℕ → Option (ℕ × ℚ × TemperState)
  | 0, s, lml, n => if s.lmbda < 1 then none else some (n, lml, s)
  | f + 1, s, lml, n =>
      if s.lmbda < 1 then
        smcSpecLoop step f (step s).1 (lml + (step s).2) (n + 1)
      else some (n, lml, s)

/-- Modelled from the spec and `binary_hyperbolic_LSM.get_LSM_embedding`
(whose SMC loop comes from the absent `bookstein_methods` module): the
driver splits the PRNG key, draws the initial particle set as a pure
function of the fresh sub-keys (one per sampled block, mirroring
`initialize_bkst_particles`), initializes the tempered SMC state at
`λ = 0`, and runs the tempering loop.  The numeric subroutines — the
normal / truncated-normal draws, the RMH mutation kernel, and the ESS
bisection — are abstracted as the pure-function parameters `draw` and
`step`; their JAX counterparts are likewise pure functions of key and
state.  Returns the advanced key together with the loop result
`(n_iter, lml, final_state)`. -/
def get_LSM_embedding (step : List ℚ → TemperState → TemperState × ℚ)
    (draw : ℕ → ℚ) (key : ℕ) (obs : List ℚ) (fuel : ℕ) :
    ℕ × Option (ℕ × ℚ × TemperState) :=
  let k1 := keySplit key
  let k2 := keySplit k1.2
  (k1.1, smcSpecLoop (step obs) fuel (smcSpecInit (draw k2.1 + draw k2.2)) 0 0)

/-- Shape of the `z` entry created by
`binary_euclidean_LSM.initialize_bkst_particles`:
`(num_particles, N - D, D)`. -/
def binEuc_init_z_shape (P N D : ℕ) : ℕ × ℕ × ℕ :=
  (P, N - D, D)

/-- Shape of the `_z` entry created by
`binary_hyperbolic_LSM.initialize_bkst_particles`:
`(num_particles, N - D, D)`. -/
def binHyp_init_z_shape (P N D : ℕ) : ℕ × ℕ × ℕ :=
  (P, N - D, D)

/-- Shape of the `_zb_x` entry created by
`binary_hyperbolic_LSM.initialize_bkst_particles`: `(num_particles, 1)`.
The binary Euclidean initializer creates no such entry. -/
def binHyp_init_zbx_shape (P : ℕ) : ℕ × ℕ :=
  (P, 1)

/-- Number of scalar variables in one binary Euclidean particle: the `z`
block `(N - D, D)` is its only entry. -/
def binEuc_particle_vars (N D : ℕ) : ℕ :=
  (N - D) * D

/-- Number of scalar variables in one binary hyperbolic particle: the `_z`
block `(N - D, D)` plus the scalar `_zb_x`. -/
def binHyp_particle_vars (N D : ℕ) : ℕ :=
  (N - D) * D + 1

/-- Dimension of the RMH proposal covariance built by
`binary_euclidean_LSM.get_LSM_embedding`:
`rmh_sigma * jnp.eye((N - D) * D + 1)`. -/
def binEuc_rmh_dim (N D : ℕ) : ℕ :=
  (N - D) * D + 1

/-- Dimension of the RMH proposal covariance built by
`binary_hyperbolic_LSM.get_LSM_embedding`: `n_vars = (N - D) * D + 1`. -/
def binHyp_rmh_dim (N D : ℕ) : ℕ :=
  (N - D) * D + 1

/-- Concrete latent positions with all coordinates zero (3 nodes, 2 dims);
the pivot's second coordinate is `0`, so its orientation constraint holds. -/
def zZero3 : Fin 3 → Fin 2 → ℝ :=
  fun _ _ => 0

/-- Concrete latent positions with two coincident nodes (2 nodes, 2 dims). -/
def zDup : Fin 2 → Fin 2 → ℝ :=
  fun _ _ => 0

/-- Concrete zero tangent vector (1 node, ambient dim 2): its Lorentzian
self-product is `0`. -/
def uZero12 : Fin 1 → Fin 2 → ℝ :=
  fun _ _ => 0

/-- Two coincident points on the 2-dimensional hyperboloid: both rows are
`(1, 0, 0)`, the apex of the upper sheet. -/
def wHyp2 : Fin 2 → Fin 3 → ℝ :=
  fun _ => Fin.cons 1 fun _ => 0

/-- Concrete distance vector `[0, 1]` (one zero distance). -/
def dZeroOne : Fin 2 → ℝ :=
  ![0, 1]

/-- Concrete distance vector `[1]`. -/
def dOne : Fin 1 → ℝ :=
  fun _ => 1

/-- Concrete single-sample all-ones observation on 2 nodes. -/
def obsOne : Fin 1 → Edges 2 → ℝ :=
  fun _ _ => 1

/-- Concrete tempering solver proposing `λ + 1` (so the cap at 1 bites). -/
def solveOne : TemperState → ℚ :=
  fun s => s.lmbda + 1

/-- Concrete particle-mutation stand-in keeping the particles unchanged. -/
def mutateId : TemperState → ℚ :=
  fun s => s.aux

/-- Concrete zero log normalizing-constant increment. -/
def incrZero : TemperState → ℚ :=
  fun _ => 0

/-- Concrete SMC transition ignoring the observations and the state. -/
def stepConst : List ℚ → TemperState → TemperState × ℚ :=
  fun _ s => (s, 0)

/-- Concrete pure draw function. -/
def drawNat : ℕ → ℚ :=
  fun k => k

/-- Concrete SMC kernel keeping the state and reporting zero increment. -/
def kernelId : ℕ → TemperState → TemperState × ℚ :=
  fun _ s => (s, 0)

/-- Concrete tempered state with `λ = 1/2`. -/
def tsHalf : TemperState :=
  ⟨1 / 2, 0⟩

/-- Concrete tempered state with `λ = 0`. -/
def tsZero : TemperState :=
  ⟨0, 0⟩

/-- Hyperboloid-validity predicate for latent positions (spec §4.1): each row
lies on the upper sheet, `z₀ > 0` with `z₀² = 1 + ‖z₁:‖²`. -/
def OnHyperboloid {N D : ℕ} (z : Fin N → Fin (D + 1) → ℝ) : Prop :=
  ∀ i, 0 < z i 0 ∧ (z i 0) ^ 2 = 1 + ∑ k : Fin D, z i k.succ ^ 2

theorem sum_sub_sq {D : ℕ} (f g : Fin D → ℝ) :
    ∑ k : Fin D, (f k - g k) ^ 2 =
      ∑ k : Fin D, f k ^ 2 + ∑ k : Fin D, g k ^ 2 - 2 * ∑ k : Fin D, f k * g k := by
  rw [Finset.mul_sum, ← Finset.sum_add_distrib, ← Finset.sum_sub_distrib]
  exact Finset.sum_congr rfl fun k _ => by ring

theorem gram_comm {N D : ℕ} (z : Fin N → Fin D → ℝ) (i j : Fin N) :
    gram z i j = gram z j i :=
  Finset.sum_congr rfl fun _ _ => mul_comm _ _

theorem gram_dist_eq {N D : ℕ} (z : Fin N → Fin D → ℝ) (i j : Fin N) :
    gram z j j + gram z i i - 2 * gram z i j =
      ∑ k : Fin D, (z i k - z j k) ^ 2 := by
  rw [sum_sub_sq]
  unfold gram
  have h1 : ∑ k : Fin D, z i k * z i k = ∑ k : Fin D, z i k ^ 2 :=
    Finset.sum_congr rfl fun k _ => (sq (z i k)).symm
  have h2 : ∑ k : Fin D, z j k * z j k = ∑ k : Fin D, z j k ^ 2 :=
    Finset.sum_congr rfl fun k _ => (sq (z j k)).symm
  rw [h1, h2]
  ring

theorem euclidean_distance_symm {N D : ℕ} (z : Fin N → Fin D → ℝ) (i j : Fin N) :
    euclidean_distance z i j = euclidean_distance z j i := by
  unfold euclidean_distance
  rw [gram_comm z i j]
  ring_nf

theorem euclidean_distance_nonneg {N D : ℕ} (z : Fin N → Fin D → ℝ) (i j : Fin N) :
    0 ≤ euclidean_distance z i j :=
  Real.sqrt_nonneg _

theorem euclidean_distance_diag {N D : ℕ} (z : Fin N → Fin D → ℝ) (i : Fin N) :
    euclidean_distance z i i = 0 := by
  unfold euclidean_distance
  have : gram z i i + gram z i i - 2 * gram z i i = 0 := by ring
  rw [this]
  simp

theorem euclidean_distance_eq_zero_iff {N D : ℕ} (z : Fin N → Fin D → ℝ)
    (i j : Fin N) : euclidean_distance z i j = 0 ↔ z i = z j := by
  unfold euclidean_distance
  have hS : (0 : ℝ) ≤ ∑ k : Fin D, (z i k - z j k) ^ 2 :=
    Finset.sum_nonneg fun k _ => sq_nonneg _
  rw [gram_dist_eq, max_eq_left hS, Real.sqrt_eq_zero hS,
    Finset.sum_eq_zero_iff_of_nonneg fun k _ => sq_nonneg _]
  constructor
  · intro h
    funext k
    have := h k (Finset.mem_univ k)
    have := sq_eq_zero_iff.mp this
    linarith
  · intro h k _
    rw [h]
    ring

theorem lorentzGram_comm {N D : ℕ} (z : Fin N → Fin (D + 1) → ℝ) (i j : Fin N) :
    lorentzGram z i j = lorentzGram z j i :=
  Finset.sum_congr rfl fun _ _ => by ring

theorem lorentzGram_split {N D : ℕ} (z : Fin N → Fin (D + 1) → ℝ) (i j : Fin N) :
    lorentzGram z i j =
      -(z i 0 * z j 0) + ∑ k : Fin D, z i k.succ * z j k.succ := by
  unfold lorentzGram lorSign
  rw [Fin.sum_univ_succ]
  simp [Fin.succ_ne_zero]

theorem arccoshClip_nonneg (x : ℝ) : 0 ≤ arccoshClip x :=
  Real.log_nonneg (le_add_of_le_of_nonneg (le_max_right x 1) (Real.sqrt_nonneg _))

theorem arccoshClip_eq_zero_iff (x : ℝ) : arccoshClip x = 0 ↔ x ≤ 1 := by
  unfold arccoshClip
  constructor
  · intro h
    by_contra hx
    push_neg at hx
    have hc : max x 1 = x := max_eq_left hx.le
    rw [hc] at h
    have h1 : (1 : ℝ) < x + Real.sqrt (x ^ 2 - 1) :=
      lt_add_of_lt_of_nonneg hx (Real.sqrt_nonneg _)
    have := Real.log_pos h1
    linarith
  · intro h
    have hc : max x 1 = 1 := max_eq_right h
    rw [hc]
    norm_num

theorem lorentz_distance_symm {N D : ℕ} (z : Fin N → Fin (D + 1) → ℝ)
    (i j : Fin N) : lorentz_distance z i j = lorentz_distance z j i := by
  unfold lorentz_distance
  by_cases h : i = j
  · subst h
    simp
  · rw [if_neg h, if_neg (Ne.symm h), lorentzGram_comm]

theorem lorentz_distance_nonneg {N D : ℕ} (z : Fin N → Fin (D + 1) → ℝ)
    (i j : Fin N) : 0 ≤ lorentz_distance z i j := by
  unfold lorentz_distance
  by_cases h : i = j
  · simp [h]
  · rw [if_neg h]
    exact arccoshClip_nonneg _

theorem lorentz_distance_diag {N D : ℕ} (z : Fin N → Fin (D + 1) → ℝ)
    (i : Fin N) : lorentz_distance z i i = 0 := by
  unfold lorentz_distance
  simp

theorem hyperboloid_one_le_neg_lorentzGram {N D : ℕ}
    (z : Fin N → Fin (D + 1) → ℝ) (hz : OnHyperboloid z) (i j : Fin N) :
    1 ≤ -(lorentzGram z i j) := by
  obtain ⟨hA, hA2⟩ := hz i
  obtain ⟨hB, hB2⟩ := hz j
  rw [lorentzGram_split]
  set A := z i 0 with hAdef
  set B := z j 0 with hBdef
  set ip := ∑ k : Fin D, z i k.succ * z j k.succ with hip
  set a2 := ∑ k : Fin D, z i k.succ ^ 2 with ha2
  set b2 := ∑ k : Fin D, z j k.succ ^ 2 with hb2
  have hsub : (0 : ℝ) ≤ a2 + b2 - 2 * ip := by
    have := sum_sub_sq (fun k : Fin D => z i k.succ) (fun k : Fin D => z j k.succ)
    have hnn : (0 : ℝ) ≤ ∑ k : Fin D, (z i k.succ - z j k.succ) ^ 2 :=
      Finset.sum_nonneg fun k _ => sq_nonneg _
    linarith [this ▸ hnn]
  have hcs : ip ^ 2 ≤ a2 * b2 :=
    Finset.sum_mul_sq_le_sq_mul_sq Finset.univ
      (fun k : Fin D => z i k.succ) (fun k : Fin D => z j k.succ)
  have hAB2 : (A * B) ^ 2 = (1 + a2) * (1 + b2) := by
    rw [mul_pow, hA2, hB2]
  have hABpos : 0 < A * B := mul_pos hA hB
  have hsq : (1 + ip) ^ 2 ≤ (A * B) ^ 2 := by
    rw [hAB2]
    nlinarith [hsub, hcs]
  have hle : 1 + ip ≤ A * B := by
    by_cases hip1 : 1 + ip ≤ 0
    · linarith
    · push_neg at hip1
      nlinarith [hsq, hABpos, hip1]
  linarith

theorem hyperboloid_neg_lorentzGram_eq_one_iff {N D : ℕ}
    (z : Fin N → Fin (D + 1) → ℝ) (hz : OnHyperboloid z) (i j : Fin N) :
    -(lorentzGram z i j) = 1 ↔ z i = z j := by
  obtain ⟨hA, hA2⟩ := hz i
  obtain ⟨hB, hB2⟩ := hz j
  constructor
  · intro h
    rw [lorentzGram_split] at h
    set A := z i 0 with hAdef
    set B := z j 0 with hBdef
    set ip := ∑ k : Fin D, z i k.succ * z j k.succ with hip
    set a2 := ∑ k : Fin D, z i k.succ ^ 2 with ha2
    set b2 := ∑ k : Fin D, z j k.succ ^ 2 with hb2
    have hAB : A * B = 1 + ip := by linarith
    have hexp : ∑ k : Fin D, (z i k.succ - z j k.succ) ^ 2 = a2 + b2 - 2 * ip :=
      sum_sub_sq (fun k : Fin D => z i k.succ) (fun k : Fin D => z j k.succ)
    have hsub : (0 : ℝ) ≤ a2 + b2 - 2 * ip := by
      have hnn : (0 : ℝ) ≤ ∑ k : Fin D, (z i k.succ - z j k.succ) ^ 2 :=
        Finset.sum_nonneg fun k _ => sq_nonneg _
      linarith [hexp ▸ hnn]
    have hcs : ip ^ 2 ≤ a2 * b2 :=
      Finset.sum_mul_sq_le_sq_mul_sq Finset.univ
        (fun k : Fin D => z i k.succ) (fun k : Fin D => z j k.succ)
    have hAB2 : (1 + ip) ^ 2 = (1 + a2) * (1 + b2) := by
      rw [← hAB, mul_pow, hA2, hB2]
    have h2ip : 2 * ip = a2 + b2 := by nlinarith [hAB2, hcs, hsub]
    have hzero : ∑ k : Fin D, (z i k.succ - z j k.succ) ^ 2 = 0 := by
      rw [hexp]
      linarith
    have hcoord : ∀ k : Fin D, z i k.succ = z j k.succ := by
      intro k
      have := (Finset.sum_eq_zero_iff_of_nonneg
        (fun k _ => sq_nonneg (z i k.succ - z j k.succ))).mp hzero k (Finset.mem_univ k)
      have := sq_eq_zero_iff.mp this
      linarith
    have ha2b2 : a2 = b2 := by
      rw [ha2, hb2]
      exact Finset.sum_congr rfl fun k _ => by rw [hcoord k]
    have hABeq : A = B := by
      have hsqeq : A ^ 2 = B ^ 2 := by rw [hA2, hB2, ha2b2]
      nlinarith [hsqeq, hA, hB]
    funext k
    refine Fin.cases ?_ ?_ k
    · exact hABeq
    · exact hcoord
  · intro h
    rw [lorentzGram_split, h]
    have : (z j 0) ^ 2 = 1 + ∑ k : Fin D, z j k.succ * z j k.succ := by
      rw [hB2]
      congr 1
      exact Finset.sum_congr rfl fun k _ => sq (z j k.succ)
    nlinarith [this]

theorem hyperboloid_lorentz_distance_eq_zero_iff {N D : ℕ}
    (z : Fin N → Fin (D + 1) → ℝ) (hz : OnHyperboloid z) (i j : Fin N) :
    lorentz_distance z i j = 0 ↔ z i = z j := by
  unfold lorentz_distance
  by_cases h : i = j
  · subst h
    simp
  · rw [if_neg h, arccoshClip_eq_zero_iff]
    have hge := hyperboloid_one_le_neg_lorentzGram z hz i j
    constructor
    · intro hle
      exact (hyperboloid_neg_lorentzGram_eq_one_iff z hz i j).mp (le_antisymm hle hge)
    · intro hzz
      exact ((hyperboloid_neg_lorentzGram_eq_one_iff z hz i j).mpr hzz).le

theorem binEucBkstLogPrior_ninf_of_neg {n : ℕ} (z : Fin (n + 1) → Fin 2 → ℝ)
    (m : Fin 2 → ℝ) (s : ℝ) (h : z 0 1 < 0) :
    binEucBkstLogPrior z m s = FExt.ninf := by
  unfold binEucBkstLogPrior boolToR
  rw [if_pos h]
  norm_num [FExt.mul, FExt.add]

theorem binEucBkstLogPrior_nan_of_nonneg {n : ℕ} (z : Fin (n + 1) → Fin 2 → ℝ)
    (m : Fin 2 → ℝ) (s : ℝ) (h : 0 ≤ z 0 1) :
    binEucBkstLogPrior z m s = FExt.nan := by
  unfold binEucBkstLogPrior boolToR
  rw [if_neg (not_lt.mpr h)]
  norm_num [FExt.mul, FExt.add]

/-- C1: at the all-zero latent positions the anchor orientation constraint
holds (`z[0,1] = 0 ≥ 0`), yet `bookstein_log_prior` returns `NaN` rather than
a finite value: the term `np.NINF * (z[0,1] < 0)` evaluates to
`(-inf) * 0 = NaN` under IEEE arithmetic, and the `NaN` propagates through
the remaining additions. -/
theorem C1_bookstein_log_prior_nan :
    binEucBkstLogPrior zZero3 (fun _ => 0) 1 = FExt.nan :=
  binEucBkstLogPrior_nan_of_nonneg zZero3 (fun _ => 0) 1 (le_refl 0)

theorem binHyp_log_likelihood_eq {N D S : ℕ} (_z : Fin N → Fin D → ℝ)
    (obs : Fin S → Edges N → ℝ) (m : Fin D → ℝ) (eps : ℝ) :
    binHyp_log_likelihood _z obs m eps =
      ∑ s : Fin S, ∑ e : Edges N, bernoulli_logpmf (obs s e)
        (d_to_p ((binHyp_get_det_params _z m eps).d e) eps) :=
  rfl

/-- C3: the binary Euclidean `log_likelihood` never reaches the Bernoulli
log-mass computation — its first statement references the undefined name
`get_all_params` (the module defines `get_det_params`) and raises
`NameError` on every input, here evaluated at concrete positions and
observations.  (The binary hyperbolic `log_likelihood` does behave as the
claim states; see `binHyp_log_likelihood_eq`.) -/
theorem C3_binEuc_log_likelihood_raises :
    binEuc_log_likelihood zDup obsOne (1 / 1000000)
      = Except.error PyErr.nameError :=
  rfl

/-- C5: the guard `clip(lor, eps, lor)` in `exponential_map` is the identity
for every input — clipping a value to the interval `[eps, itself]` returns
the value — so at the zero tangent vector the norm used as divisor is `0`,
not at least `√eps > 0` as claimed. -/
theorem C5_norm_guard_is_noop :
    (∀ x eps : ℝ, clip x eps x = x) ∧
    exp_map_norm uZero12 (1 / 1000000) 0 = 0 ∧
    (0 : ℝ) < Real.sqrt (1 / 1000000) := by
  have hnoop : ∀ x eps : ℝ, clip x eps x = x := fun x eps =>
    min_eq_right (le_max_left x eps)
  refine ⟨hnoop, ?_, Real.sqrt_pos.mpr (by norm_num)⟩
  have hlor : lorentzian uZero12 uZero12 0 = 0 := by
    simp [lorentzian, uZero12]
  unfold exp_map_norm
  rw [hlor, hnoop 0 (1 / 1000000), Real.sqrt_zero]

/-- C10: the hyperbolic link function `d_to_p` is monotonically
non-increasing on non-negative distances: `0 ≤ d1 ≤ d2` implies
`d_to_p d2 ≤ d_to_p d1`. -/
theorem C10_d_to_p_antitone (eps d1 d2 : ℝ) (h0 : 0 ≤ d1) (h12 : d1 ≤ d2) :
    d_to_p d2 eps ≤ d_to_p d1 eps := by
  simp only [d_to_p, clip]
  have hsq : d1 ^ 2 ≤ d2 ^ 2 := pow_le_pow_left₀ h0 h12 2
  have hexp : Real.exp (-(d2 ^ 2)) ≤ Real.exp (-(d1 ^ 2)) :=
    Real.exp_le_exp.mpr (by linarith)
  exact min_le_min (max_le_max hexp le_rfl) le_rfl

theorem C10_d_to_p_antitone_witness :
    (0 : ℝ) ≤ 0 ∧ (0 : ℝ) ≤ 1 ∧
    d_to_p 1 (1 / 1000000) ≤ d_to_p 0 (1 / 1000000) :=
  ⟨le_refl 0, zero_le_one, C10_d_to_p_antitone (1 / 1000000) 0 1 (le_refl 0) zero_le_one⟩

/-- C8: at the module defaults `N = 164, D = 2` the binary Euclidean driver
builds a `325 × 325` RMH proposal covariance (`(N-D)*D + 1`) although its
particles hold only `(N-D)*D = 324` scalars — the `+1` belongs only to the
hyperbolic variant, whose `_zb_x` entry makes its covariance dimension match;
the per-particle free block has shape `(N-D, D)` in both variants, as
claimed. -/
theorem C8_rmh_dim_mismatch :
    binEuc_rmh_dim 164 2 = 325 ∧ binEuc_particle_vars 164 2 = 324 ∧
    binEuc_rmh_dim 164 2 ≠ binEuc_particle_vars 164 2 ∧
    binHyp_rmh_dim 164 2 = binHyp_particle_vars 164 2 ∧
    binEuc_init_z_shape 1000 164 2 = (1000, 162, 2) ∧
    binHyp_init_z_shape 2000 164 2 = (2000, 162, 2) ∧
    binHyp_init_zbx_shape 2000 = (2000, 1) := by
  refine ⟨by decide, by decide, by decide, by decide, by decide, by decide, by decide⟩

/-- C9: the embedding driver is a pure function of the initial PRNG key, the
observations and the (abstracted, themselves pure) numeric subroutines, so
two runs with identical inputs return identical keys, iteration counts, log
marginal likelihoods and final particle states. -/
theorem C9_embedding_deterministic (step : List ℚ → TemperState → TemperState × ℚ)
    (draw : ℕ → ℚ) (key1 key2 : ℕ) (obs1 obs2 : List ℚ) (fuel1 fuel2 : ℕ)
    (hk : key1 = key2) (ho : obs1 = obs2) (hf : fuel1 = fuel2) :
    get_LSM_embedding step draw key1 obs1 fuel1 =
      get_LSM_embedding step draw key2 obs2 fuel2 := by
  rw [hk, ho, hf]

theorem C9_embedding_deterministic_witness :
    (7 : ℕ) = 7 ∧ ([1, 2] : List ℚ) = [1, 2] ∧ (3 : ℕ) = 3 ∧
    get_LSM_embedding stepConst drawNat 7 [1, 2] 3 =
      get_LSM_embedding stepConst drawNat 7 [1, 2] 3 :=
  ⟨rfl, rfl, rfl,
    C9_embedding_deterministic stepConst drawNat 7 7 [1, 2] [1, 2] 3 3 rfl rfl rfl⟩

/-- C4 counterexample: the claim that both binary link functions map every
finite non-negative distance vector strictly inside `(eps, 1-eps)` fails at
`d = [0, 1]` with `eps = 1e-6`: the Euclidean link returns exactly `1` at
the zero distance (not `< 1 - eps`), and the hyperbolic link returns exactly
the endpoint `1 - eps` at distance `0`. -/
theorem C4_link_strict_counterexample :
    binEuc_p dZeroOne (1 / 1000000) 0 = 1 ∧
    ¬ binEuc_p dZeroOne (1 / 1000000) 0 < 1 - 1 / 1000000 ∧
    d_to_p 0 (1 / 1000000) = 1 - 1 / 1000000 := by
  have h0 : binEuc_p dZeroOne (1 / 1000000) 0 = 1 := by
    simp [binEuc_p, dZeroOne]
  refine ⟨h0, ?_, ?_⟩
  · rw [h0]
    norm_num
  · unfold d_to_p clip
    norm_num

/-- C4 (amended): for every non-negative finite distance vector, the
hyperbolic link function lands in the closed interval `[eps, 1-eps]`
(endpoints attainable), and the Euclidean link function lands in `(0, 1]`
(positive, at most one) — both therefore stay strictly inside `(0, 1)` only
up to the closed endpoints noted. -/
theorem C4_link_bounds {m : ℕ} (d : Fin (m + 1) → ℝ) (eps : ℝ) (heps : 0 < eps)
    (hepsHalf : eps ≤ 1 / 2) (hd : ∀ e, 0 ≤ d e) (e : Fin (m + 1)) :
    eps ≤ d_to_p (d e) eps ∧ d_to_p (d e) eps ≤ 1 - eps ∧
    0 < binEuc_p d eps e ∧ binEuc_p d eps e ≤ 1 := by
  have hmax : d e ≤ vecMax d := Finset.le_sup' d (Finset.mem_univ e)
  have hden : 0 < vecMax d + eps := by
    have h0 : (0 : ℝ) ≤ vecMax d := le_trans (hd e) hmax
    linarith
  refine ⟨?_, ?_, ?_, ?_⟩
  · simp only [d_to_p, clip]
    exact le_min (le_max_right _ _) (by linarith)
  · simp only [d_to_p, clip]
    exact min_le_right _ _
  · simp only [binEuc_p]
    have hlt : d e / (vecMax d + eps) < 1 := (div_lt_one hden).mpr (by linarith)
    linarith
  · simp only [binEuc_p]
    have hnn : 0 ≤ d e / (vecMax d + eps) := div_nonneg (hd e) hden.le
    linarith

theorem C4_link_bounds_witness :
    (0 : ℝ) < 1 / 4 ∧ (1 / 4 : ℝ) ≤ 1 / 2 ∧ (∀ e : Fin 1, (0 : ℝ) ≤ dOne e) ∧
    ((1 / 4 : ℝ) ≤ d_to_p (dOne 0) (1 / 4) ∧
     d_to_p (dOne 0) (1 / 4) ≤ 1 - 1 / 4 ∧
     0 < binEuc_p dOne (1 / 4) 0 ∧ binEuc_p dOne (1 / 4) 0 ≤ 1) :=
  ⟨by norm_num, by norm_num, fun _ => zero_le_one,
    C4_link_bounds dOne (1 / 4) (by norm_num) (by norm_num) (fun _ => zero_le_one) 0⟩

theorem wHyp2_onHyperboloid : OnHyperboloid wHyp2 := by
  intro i
  constructor
  · norm_num [wHyp2]
  · simp [wHyp2]

/-- C6 counterexample: the distance matrices are not zero *exactly* on the
diagonal — two coincident latent positions give a zero off-diagonal entry,
both for `euclidean_distance` (two equal rows) and for `lorentz_distance`
(two equal hyperboloid points). -/
theorem C6_off_diagonal_zero :
    euclidean_distance zDup 0 1 = 0 ∧
    lorentz_distance wHyp2 0 1 = 0 ∧ (0 : Fin 2) ≠ 1 :=
  ⟨(euclidean_distance_eq_zero_iff zDup 0 1).mpr rfl,
   (hyperboloid_lorentz_distance_eq_zero_iff wHyp2 wHyp2_onHyperboloid 0 1).mpr rfl,
   by decide⟩

/-- C6 (amended): both all-pairs distance matrices are symmetric with
non-negative entries and zero diagonal; an entry vanishes exactly when the
two latent positions coincide (for `lorentz_distance` under the hyperboloid
validity of the positions), so the matrices vanish exactly on the diagonal
precisely when the rows are pairwise distinct. -/
theorem C6_distance_matrix_properties {N D : ℕ} (z : Fin N → Fin D → ℝ)
    (w : Fin N → Fin (D + 1) → ℝ) (hw : OnHyperboloid w) (i j : Fin N) :
    (euclidean_distance z i j = euclidean_distance z j i ∧
     0 ≤ euclidean_distance z i j ∧
     euclidean_distance z i i = 0 ∧
     (euclidean_distance z i j = 0 ↔ z i = z j)) ∧
    (lorentz_distance w i j = lorentz_distance w j i ∧
     0 ≤ lorentz_distance w i j ∧
     lorentz_distance w i i = 0 ∧
     (lorentz_distance w i j = 0 ↔ w i = w j)) :=
  ⟨⟨euclidean_distance_symm z i j, euclidean_distance_nonneg z i j,
    euclidean_distance_diag z i, euclidean_distance_eq_zero_iff z i j⟩,
   ⟨lorentz_distance_symm w i j, lorentz_distance_nonneg w i j,
    lorentz_distance_diag w i, hyperboloid_lorentz_distance_eq_zero_iff w hw i j⟩⟩

theorem C6_distance_matrix_properties_witness :
    OnHyperboloid wHyp2 ∧
    ((euclidean_distance zDup 0 1 = euclidean_distance zDup 1 0 ∧
      0 ≤ euclidean_distance zDup 0 1 ∧
      euclidean_distance zDup 0 0 = 0 ∧
      (euclidean_distance zDup 0 1 = 0 ↔ zDup 0 = zDup 1)) ∧
     (lorentz_distance wHyp2 0 1 = lorentz_distance wHyp2 1 0 ∧
      0 ≤ lorentz_distance wHyp2 0 1 ∧
      lorentz_distance wHyp2 0 0 = 0 ∧
      (lorentz_distance wHyp2 0 1 = 0 ↔ wHyp2 0 = wHyp2 1))) :=
  ⟨wHyp2_onHyperboloid,
    C6_distance_matrix_properties zDup wHyp2 wHyp2_onHyperboloid 0 1⟩

/-- C2: whenever the initial tempering parameter is below 1 (as it always is,
since `smc.init` starts at `λ = 0`), the binary Euclidean inference loop
raises `ValueError` on its first step instead of returning: the loop carry
is the 4-tuple `(0, 0., initial_state, key)` but `step` unpacks it into the
five names `i, lml, s_values, state, key`. -/
theorem C2_smc_loop_raises (kernel : ℕ → TemperState → TemperState × ℚ)
    (key : ℕ) (s0 : TemperState) (fuel : ℕ) (h0 : s0.lmbda < 1)
    (hf : 1 ≤ fuel) :
    smc_bkst_inference_loop kernel key s0 fuel = Except.error PyErr.valueError := by
  obtain ⟨f, rfl⟩ : ∃ f, fuel = f + 1 := ⟨fuel - 1, by omega⟩
  simp [smc_bkst_inference_loop, pyWhile, smcCond, smcStepBody, Except.bind, h0]

theorem C2_smc_loop_raises_witness :
    tsZero.lmbda < 1 ∧ (1 : ℕ) ≤ 1 ∧
    smc_bkst_inference_loop kernelId 0 tsZero 1 = Except.error PyErr.valueError :=
  ⟨by norm_num [tsZero], le_refl 1,
    C2_smc_loop_raises kernelId 0 tsZero 1 (by norm_num [tsZero]) (le_refl 1)⟩

theorem smcSpecLoop_terminal_lmbda (step : TemperState → TemperState × ℚ)
    (hstep : ∀ s, (step s).1.lmbda ≤ 1) :
    ∀ (fuel : ℕ) (s : TemperState) (lml : ℚ) (n : ℕ) (r : ℕ × ℚ × TemperState),
      s.lmbda ≤ 1 → smcSpecLoop step fuel s lml n = some r → r.2.2.lmbda = 1 := by
  intro fuel
  induction fuel with
  | zero =>
    intro s lml n r hs hr
    simp only [smcSpecLoop] at hr
    by_cases h : s.lmbda < 1
    · rw [if_pos h] at hr
      exact absurd hr (by simp)
    · rw [if_neg h] at hr
      have hr2 := Option.some.inj hr
      rw [← hr2]
      exact le_antisymm hs (not_lt.mp h)
  | succ f ih =>
    intro s lml n r hs hr
    simp only [smcSpecLoop] at hr
    by_cases h : s.lmbda < 1
    · rw [if_pos h] at hr
      exact ih (step s).1 (lml + (step s).2) (n + 1) r (hstep s) hr
    · rw [if_neg h] at hr
      have hr2 := Option.some.inj hr
      rw [← hr2]
      exact le_antisymm hs (not_lt.mp h)

/-- C7: for the spec-modelled adaptive tempered SMC engine, the tempering
parameter starts at `0`, never decreases across a step (the next value is
the ESS solution `solve s > λ` capped at `1`), and whenever the `while λ < 1`
loop returns, the final tempering parameter is exactly `1`. -/
theorem C7_lambda_monotone_terminates (solve mutate incr : TemperState → ℚ)
    (hsolve : ∀ s, s.lmbda < solve s) (aux0 : ℚ) (s : TemperState)
    (hs : s.lmbda ≤ 1) (fuel : ℕ) (r : ℕ × ℚ × TemperState)
    (hr : smcSpecLoop (smcSpecStep solve mutate incr) fuel (smcSpecInit aux0) 0 0
      = some r) :
    (smcSpecInit aux0).lmbda = 0 ∧
    s.lmbda ≤ (smcSpecStep solve mutate incr s).1.lmbda ∧
    r.2.2.lmbda = 1 := by
  refine ⟨rfl, ?_, ?_⟩
  · show s.lmbda ≤ min 1 (solve s)
    exact le_min hs (hsolve s).le
  · exact smcSpecLoop_terminal_lmbda _ (fun t => min_le_left _ _) fuel _ 0 0 r
      (by norm_num [smcSpecInit]) hr

theorem C7_lambda_monotone_terminates_witness :
    tsHalf.lmbda ≤ 1 ∧
    ((smcSpecInit 5).lmbda = 0 ∧
     tsHalf.lmbda ≤ (smcSpecStep solveOne mutateId incrZero tsHalf).1.lmbda ∧
     ((1 : ℕ), (0 : ℚ), (⟨1, 5⟩ : TemperState)).2.2.lmbda = 1) :=
  ⟨by norm_num [tsHalf],
    C7_lambda_monotone_terminates solveOne mutateId incrZero
      (fun s => lt_add_one s.lmbda) 5 tsHalf (by norm_num [tsHalf]) 2 (1, 0, ⟨1, 5⟩)
      (by norm_num [smcSpecLoop, smcSpecStep, smcSpecInit, solveOne, mutateId,
        incrZero])⟩
